import Mathlib

/-!
Verification of the Read-live reading application core

Shallow embedding of the book-reading pipeline of the Read-live repository:
the format normalizer, the paginator, the content fetcher
(`src/Read/src/components/BookReader.tsx`), the reading-session navigation
handlers, and the catalog-search / progress-persistence service
(`BookService`).

JavaScript strings are modelled as `List Char`; regular-expression
replacement passes are modelled as specialized left-to-right scanners that
mirror the semantics of each concrete pattern used by the code.  The
JavaScript `\s` class is modelled on its ASCII portion (space, tab, newline,
carriage return, vertical tab, form feed), which covers every string the
program manipulates here.
-/

namespace ReadLive

/-- The characters of the ASCII portion of the JavaScript `\s` class. -/
def isWS (c : Char) : Bool :=
  c = ' ' || c = '\t' || c = '\n' || c = '\r' || c = Char.ofNat 11 || c = Char.ofNat 12

/-- Membership in the JavaScript `[A-Z]` class. -/
def isUpperAZ (c : Char) : Bool :=
  'A' ≤ c && c ≤ 'Z'

/-- Membership in the JavaScript `\d` class. -/
def isDigit09 (c : Char) : Bool :=
  '0' ≤ c && c ≤ '9'

/-- Membership in the JavaScript `\w` class (for `\b` boundaries). -/
def isWordCh (c : Char) : Bool :=
  ('a' ≤ c && c ≤ 'z') || ('A' ≤ c && c ≤ 'Z') || isDigit09 c || c = '_'

/-- Case-insensitive prefix test: does `s` start with `pat`
(pattern given in lowercase), as under the JavaScript `i` flag? -/
def leadsCI : List Char → List Char → Bool
  | [], _ => true
  | _ :: _, [] => false
  | p :: ps, c :: cs => (Char.toLower c = p) && leadsCI ps cs

/-- Substring test, as JavaScript `String.prototype.includes`. -/
def containsSub (pat : List Char) : List Char → Bool
  | [] => List.isPrefixOf pat []
  | c :: cs => List.isPrefixOf pat (c :: cs) || containsSub pat cs

/-- Model of `String.prototype.trim`: drop the trailing whitespace run. -/
def trimRight : List Char → List Char
  | [] => []
  | c :: t =>
    match trimRight t with
    | [] => if isWS c then [] else [c]
    | r => c :: r

/-- Model of `String.prototype.trim`: drop leading and trailing whitespace. -/
def trimWS (s : List Char) : List Char :=
  trimRight (s.dropWhile isWS)

/-!
Section: Generic single-pattern replacement scanner

`scanAux m fuel s` mirrors a global `String.prototype.replace(re, r)` call:
scan left to right; at each position, if the matcher `m` recognizes the
pattern there it returns the replacement text and the remainder after the
match (every matcher below consumes at least one character), otherwise the
scanner advances one character.  Matches are found on the original text;
replacements are not rescanned.  The fuel `s.length + 1` always suffices.
-/

def scanAux (m : List Char → Option (List Char × List Char)) :
    Nat → List Char → List Char
  | 0, s => s
  | Nat.succ fuel, s =>
    match m s with
    | some (r, rest) => r ++ scanAux m fuel rest
    | none =>
      match s with
      | [] => []
      | c :: t => c :: scanAux m fuel t

/-- One global replacement pass with matcher `m`. -/
def replacePass (m : List Char → Option (List Char × List Char))
    (s : List Char) : List Char :=
  scanAux m (s.length + 1) s

/-- Does matcher `m` fire anywhere in `s`? -/
def hasMatch (m : List Char → Option (List Char × List Char)) :
    List Char → Bool
  | [] => (m []).isSome
  | c :: t => (m (c :: t)).isSome || hasMatch m t

/-!
Section: Format Normalizer (`processBookContent`, BookReader.tsx lines 214-257)

One matcher per regular-expression replacement of the source, in source
order.  Markup path: strip `<script>`/`<style>` blocks, convert headings to
`=== text ===` banners, `</p>` to paragraph breaks, drop `<p ...>`, convert
`<br>` to newlines, strip remaining tags, decode five named entities, then
collapse whitespace and trim.
-/

/-- The `\b` boundary after a word character: the next position must not be a word
character. -/
def wordBoundaryOk (s : List Char) : Bool :=
  match s with
  | [] => true
  | c :: _ => !isWordCh c

/-- Drop text through the first case-insensitive occurrence of `pat`
(pattern in lowercase); `none` when `pat` does not occur. -/
def dropThroughCI (pat : List Char) : List Char → Option (List Char)
  | [] => none
  | c :: t =>
    if leadsCI pat (c :: t) then some (List.drop pat.length (c :: t))
    else dropThroughCI pat t

/-- Matcher for `/<script\b[^<]*(?:(?!<\/script>)<[^<]*)*<\/script>/gi` (and the same
shape for `style`): from the opening tag through the first closing tag. -/
def mStripBlock (openTag closeTag : List Char) (s : List Char) :
    Option (List Char × List Char) :=
  if leadsCI openTag s && wordBoundaryOk (List.drop openTag.length s) then
    (dropThroughCI closeTag (List.drop openTag.length s)).map (fun rest => ([], rest))
  else none

/-- The `[1-6]` class of heading tags. -/
def isH16 (c : Char) : Bool :=
  '1' ≤ c && c ≤ '6'

/-- Does a closing `</h[1-6]>` (case-insensitive) start here? -/
def isHeadClose (s : List Char) : Bool :=
  match s with
  | '<' :: '/' :: h :: d :: '>' :: _ => Char.toLower h = 'h' && isH16 d
  | _ => false

/-- The lazy `(.*?)<\/h[1-6]>` tail of the heading pattern: capture up to
the first closing tag; `.` does not cross a newline. -/
def headClose (acc : List Char) : List Char → Option (List Char × List Char)
  | [] => none
  | c :: t =>
    if isHeadClose (c :: t) then some (acc.reverse, List.drop 5 (c :: t))
    else if c = '\n' then none
    else headClose (c :: acc) t

/-- Matcher for `/<h[1-6][^>]*>(.*?)<\/h[1-6]>/gi`, replaced by an `=== $1 ===` banner. -/
def mHeading (s : List Char) : Option (List Char × List Char) :=
  match s with
  | '<' :: h :: d :: rest =>
    if Char.toLower h = 'h' && isH16 d then
      match rest.dropWhile (fun c => c ≠ '>') with
      | '>' :: r =>
        (headClose [] r).map (fun p =>
          ("\n\n=== ".data ++ p.1 ++ " ===\n\n".data, p.2))
      | _ => none
    else none
  | _ => none

/-- Matcher for `/<\/p>/gi`, replaced by a paragraph break. -/
def mClosP (s : List Char) : Option (List Char × List Char) :=
  if leadsCI "</p>".data s then some ("\n\n".data, List.drop 4 s) else none

/-- Matcher for `/<p[^>]*>/gi`, removed. -/
def mOpenP (s : List Char) : Option (List Char × List Char) :=
  match s with
  | '<' :: p :: rest =>
    if Char.toLower p = 'p' then
      match rest.dropWhile (fun c => c ≠ '>') with
      | '>' :: r => some ([], r)
      | _ => none
    else none
  | _ => none

/-- Matcher for `/<br\s*\/?>/gi`, replaced by a newline. -/
def mBr (s : List Char) : Option (List Char × List Char) :=
  match s with
  | '<' :: b :: r :: rest =>
    if Char.toLower b = 'b' && Char.toLower r = 'r' then
      match rest.dropWhile isWS with
      | '>' :: t => some (['\n'], t)
      | '/' :: '>' :: t => some (['\n'], t)
      | _ => none
    else none
  | _ => none

/-- Matcher for `/<[^>]+>/g`, removed. -/
def mTag (s : List Char) : Option (List Char × List Char) :=
  match s with
  | '<' :: rest =>
    if (rest.takeWhile (fun c => c ≠ '>')).isEmpty then none
    else
      match rest.dropWhile (fun c => c ≠ '>') with
      | '>' :: r => some ([], r)
      | _ => none
  | _ => none

/-- A case-sensitive literal replacement (the entity decodes and the
carriage-return normalizations). -/
def mLit (pat repl : List Char) (s : List Char) :
    Option (List Char × List Char) :=
  if List.isPrefixOf pat s then some (repl, List.drop pat.length s) else none

/-- The `[ \t]` class. -/
def isSpTab (c : Char) : Bool :=
  c = ' ' || c = '\t'

/-- Matcher for `/[ \t]+/g`, replaced by a single space. -/
def mSpaceRun (s : List Char) : Option (List Char × List Char) :=
  match s with
  | c :: _ => if isSpTab c then some ([' '], s.dropWhile isSpTab) else none
  | [] => none

/-- Matcher for `/\n[ \t]+/g`, replaced by a newline. -/
def mNlSpace (s : List Char) : Option (List Char × List Char) :=
  match s with
  | '\n' :: c :: t =>
    if isSpTab c then some (['\n'], (c :: t).dropWhile isSpTab) else none
  | _ => none

/-- Matcher for `/[ \t]+\n/g`, replaced by a newline. -/
def mSpaceNl (s : List Char) : Option (List Char × List Char) :=
  match s with
  | c :: _ =>
    if isSpTab c then
      match s.dropWhile isSpTab with
      | '\n' :: t => some (['\n'], t)
      | _ => none
    else none
  | [] => none

/-- Matcher for `/\n{3,}/g`, collapsed to exactly two newlines. -/
def mNl3 (s : List Char) : Option (List Char × List Char) :=
  match s with
  | '\n' :: '\n' :: '\n' :: _ =>
    some (['\n', '\n'], s.dropWhile (fun c => c = '\n'))
  | _ => none

/-- The markup branch of `processBookContent` (lines 219-244). -/
def normalizeMarkup (s : List Char) : List Char :=
  let s := replacePass (mStripBlock "<script".data "</script>".data) s
  let s := replacePass (mStripBlock "<style".data "</style>".data) s
  let s := replacePass mHeading s
  let s := replacePass mClosP s
  let s := replacePass mOpenP s
  let s := replacePass mBr s
  let s := replacePass mTag s
  let s := replacePass (mLit "&nbsp;".data " ".data) s
  let s := replacePass (mLit "&amp;".data "&".data) s
  let s := replacePass (mLit "&lt;".data "<".data) s
  let s := replacePass (mLit "&gt;".data ">".data) s
  let s := replacePass (mLit "&quot;".data "\"".data) s
  let s := replacePass (mLit "&apos;".data [Char.ofNat 39]) s
  let s := replacePass mSpaceRun s
  let s := replacePass mNlSpace s
  let s := replacePass mSpaceNl s
  let s := replacePass mNl3 s
  trimWS s

/-- The `[IVXLC\d]` class under the `i` flag. -/
def romanCh (c : Char) : Bool :=
  isDigit09 c || Char.toLower c = 'i' || Char.toLower c = 'v' ||
    Char.toLower c = 'x' || Char.toLower c = 'l' || Char.toLower c = 'c'

/-- Matcher for `/(CHAPTER [IVXLC\d]+.*)/gi`, wrapped in an `=== $1 ===` banner; the
match runs to the end of the line. -/
def mChapter (s : List Char) : Option (List Char × List Char) :=
  if leadsCI "chapter ".data s then
    match List.drop 8 s with
    | c :: _ =>
      if romanCh c then
        some ("\n\n=== ".data ++ s.takeWhile (fun ch => ch ≠ '\n') ++ " ===\n\n".data,
          s.dropWhile (fun ch => ch ≠ '\n'))
      else none
    | [] => none
  else none

/-!
The all-caps heading rule `/^\s*([A-Z][A-Z\s]{10,})\s*$/gm` needs `^`/`$`
anchors and backtracking, so it gets a dedicated scanner that tracks
whether the current position is a line start.
-/

/-- The `[A-Z\s]` class. -/
def upWS (c : Char) : Bool :=
  isUpperAZ c || isWS c

/-- Anchor `$` under the `m` flag: end of text or a newline next. -/
def atLineEnd (s : List Char) : Bool :=
  match s with
  | [] => true
  | c :: _ => c = '\n'

/-- Backtrack the trailing `\s*` (candidate length counted down from the
greedy maximum) until `$` holds. -/
def capsTail : Nat → List Char → Option Nat
  | 0, s => if atLineEnd s then some 0 else none
  | Nat.succ c, s =>
    if atLineEnd (List.drop (c + 1) s) then some (c + 1) else capsTail c s

/-- Backtrack the `[A-Z\s]{10,}` repetition length `b` (counted down from
the greedy maximum, at least 10) over `t`; returns `(b, tail length)`. -/
def capsBody : Nat → List Char → Option (Nat × Nat)
  | 0, _ => none
  | Nat.succ b, t =>
    if Nat.succ b < 10 then none
    else
      let after := List.drop (Nat.succ b) t
      match capsTail (after.takeWhile isWS).length after with
      | some c => some (Nat.succ b, c)
      | none => capsBody b t

/-- One attempt with leading `\s*` of length exactly `a`. -/
def capsAttempt (a : Nat) (s : List Char) : Option (Nat × Nat × Nat) :=
  match List.drop a s with
  | c :: t =>
    if isUpperAZ c then
      match capsBody (t.takeWhile upWS).length t with
      | some (b, cc) => some (a, b, cc)
      | none => none
    else none
  | [] => none

/-- Backtrack the leading `\s*` length from the greedy maximum down to 0. -/
def capsStart : Nat → List Char → Option (Nat × Nat × Nat)
  | 0, s => capsAttempt 0 s
  | Nat.succ a, s =>
    match capsAttempt (Nat.succ a) s with
    | some r => some r
    | none => capsStart a s

/-- Attempt `^\s*([A-Z][A-Z\s]{10,})\s*$` at a position where `^` holds;
returns the banner replacement and the number of consumed characters. -/
def capsMatch (s : List Char) : Option (List Char × Nat) :=
  match capsStart (s.takeWhile isWS).length s with
  | some (a, b, c) =>
    some ("\n\n=== ".data ++ List.take (1 + b) (List.drop a s) ++ " ===\n\n".data,
      a + 1 + b + c)
  | none => none

/-- Scanner for the all-caps rule, tracking line starts; after a match the
next position is a line start exactly when the last consumed character was
a newline. -/
def capsScanAux : Nat → Bool → List Char → List Char
  | 0, _, s => s
  | Nat.succ fuel, atStart, s =>
    match s with
    | [] => []
    | c :: t =>
      if atStart then
        match capsMatch (c :: t) with
        | some (r, k) =>
          r ++ capsScanAux fuel ((List.take k (c :: t)).getLast? == some '\n')
            (List.drop k (c :: t))
        | none => c :: capsScanAux fuel (c == '\n') t
      else c :: capsScanAux fuel (c == '\n') t

/-- The `/^\s*([A-Z][A-Z\s]{10,})\s*$/gm` replacement pass. -/
def capsPass (s : List Char) : List Char :=
  capsScanAux (s.length + 1) true s

/-- Does the all-caps rule fire anywhere (walking the same line-start
state as the scanner)? -/
def capsFindAux : Bool → List Char → Bool
  | _, [] => false
  | atStart, c :: t =>
    (atStart && (capsMatch (c :: t)).isSome) || capsFindAux (c == '\n') t

/-- The plain-text branch of `processBookContent` (lines 247-256). -/
def normalizePlain (s : List Char) : List Char :=
  let s := replacePass (mLit "\r\n".data "\n".data) s
  let s := replacePass (mLit "\r".data "\n".data) s
  let s := replacePass mChapter s
  let s := capsPass s
  let s := replacePass mSpaceRun s
  let s := replacePass mNl3 s
  trimWS s

/-- The normalization step of `processBookContent`: the branch on the
content URL (line 217) selects the markup or plain path. -/
def processText (text contentUrl : List Char) : List Char :=
  if containsSub "html".data contentUrl || contentUrl = "demo".data then
    normalizeMarkup text
  else
    normalizePlain text

/-!
Section: Paginator

`processBookContent` (lines 259-290) and `getCurrentPageContent`
(lines 308-334) each carry their own copy of the pagination loop; both are
embedded separately (`buildPagesLoad` / `buildPagesRender`).
-/

/-- The page budget (lines 260 and 310). -/
def wordsPerPage : Nat := 400

/-- Model of `text.split(/\n\n+/)`: segments between runs of two or more
newlines (each separator is a greedy maximal newline run).  Every step
consumes at least one character, so fuel `s.length + 1` always suffices;
on exhausted fuel the remainder joins the current segment. -/
def splitParasGo : Nat → List Char → List Char → List (List Char)
  | 0, acc, s => [acc.reverse ++ s]
  | Nat.succ _, acc, [] => [acc.reverse]
  | Nat.succ f, acc, c :: rest =>
    if c = '\n' ∧ rest.head? = some '\n' then
      acc.reverse :: splitParasGo f [] (rest.dropWhile (fun ch => ch = '\n'))
    else
      splitParasGo f (c :: acc) rest

def splitParas (s : List Char) : List (List Char) :=
  splitParasGo (s.length + 1) [] s

/-- Model of `p.split(/\s+/)`: JavaScript split on one-or-more-whitespace
separators (leading/trailing separators produce empty segments). -/
def splitWSGo (acc : List Char) (insep : Bool) : List Char → List (List Char)
  | [] => [acc.reverse]
  | c :: t =>
    if isWS c then
      if insep then splitWSGo acc insep t
      else acc.reverse :: splitWSGo [] true t
    else splitWSGo (c :: acc) false t

/-- Model of `paragraph.trim().split(/\s+/).length` (lines 267 and 317). -/
def countTokens (p : List Char) : Nat :=
  (splitWSGo [] false (trimWS p)).length

/-- The load-time pagination loop of `processBookContent`
(lines 262-283). -/
def buildPagesLoad : List (List Char) → List Char → Nat → List (List Char) →
    List (List Char)
  | [], cur, _, pages =>
    if trimWS cur ≠ [] then pages ++ [trimWS cur] else pages
  | p :: rest, cur, wc, pages =>
    let pw := countTokens p
    if wc + pw > wordsPerPage ∧ trimWS cur ≠ [] then
      buildPagesLoad rest (p ++ "\n\n".data) pw (pages ++ [trimWS cur])
    else
      buildPagesLoad rest (cur ++ (p ++ "\n\n".data)) (wc + pw) pages

/-- Page list computed at load time; its length becomes `totalPages`. -/
def processPagesLoad (text : List Char) : List (List Char) :=
  buildPagesLoad (splitParas text) [] 0 []

/-- The render-time pagination loop of `getCurrentPageContent`
(lines 312-331), maintained separately in the source. -/
def buildPagesRender : List (List Char) → List Char → Nat → List (List Char) →
    List (List Char)
  | [], cur, _, pages =>
    if trimWS cur ≠ [] then pages ++ [trimWS cur] else pages
  | p :: rest, cur, wc, pages =>
    let pw := countTokens p
    if wc + pw > wordsPerPage ∧ trimWS cur ≠ [] then
      buildPagesRender rest (p ++ "\n\n".data) pw (pages ++ [trimWS cur])
    else
      buildPagesRender rest (cur ++ (p ++ "\n\n".data)) (wc + pw) pages

/-- Page list recomputed at render time. -/
def renderPages (content : List Char) : List (List Char) :=
  buildPagesRender (splitParas content) [] 0 []

/-- Model of `getCurrentPageContent` (lines 308-334): `pages[currentPage] || ''`,
empty for an empty content string or an out-of-range index. -/
def getCurrentPageContent (content : List Char) (currentPage : Int) : List Char :=
  if content = [] then []
  else if 0 ≤ currentPage then ((renderPages content).get? currentPage.toNat).getD []
  else []

/-- Word-start counter: `cwAux inWord s` counts the maximal
non-whitespace runs of `s`, `inWord` telling whether the previous
character was non-whitespace. -/
def cwAux : Bool → List Char → Nat
  | _, [] => 0
  | inw, c :: t =>
    if isWS c then cwAux false t
    else (if inw then 0 else 1) + cwAux true t

/-- The whitespace-delimited word count of a text. -/
def countWords (s : List Char) : Nat :=
  cwAux false s

/-- Does the text contain two consecutive newlines (a paragraph
separator)? -/
def hasDD : List Char → Bool
  | [] => false
  | c :: t => (decide (c = '\n') && decide (t.head? = some '\n')) || hasDD t

/-!
Section: Reading session (state and handlers)
-/

inductive Theme
  | light
  | dark
  | sepia
deriving DecidableEq

structure ReaderSettings where
  fontSize : Int
  theme : Theme
  fontFamily : String
  lineHeight : Rat
deriving DecidableEq

structure ReaderState where
  content : List Char
  currentPage : Int
  totalPages : Nat
  isBookmarked : Bool
  settings : ReaderSettings
deriving DecidableEq

/-- Model of `handleNextPage` (lines 336-340). -/
def handleNextPage (st : ReaderState) : ReaderState :=
  if st.currentPage < (st.totalPages : Int) - 1 then
    { st with currentPage := st.currentPage + 1 }
  else st

/-- Model of `handlePrevPage` (lines 342-346). -/
def handlePrevPage (st : ReaderState) : ReaderState :=
  if 0 < st.currentPage then { st with currentPage := st.currentPage - 1 }
  else st

/-- The page slider `onChange` (line 632): stores the parsed value with no
clamping in the handler itself. -/
def seekSlider (v : Int) (st : ReaderState) : ReaderState :=
  { st with currentPage := v }

/-- The four settings-panel updates (lines 490, 506, 516-547, 555-583):
each merges one field into the previous settings. -/
inductive SettingChange
  | fontSize (v : Int)
  | lineHeight (v : Rat)
  | theme (t : Theme)
  | fontFamily (f : String)

def applySetting : SettingChange → ReaderState → ReaderState
  | .fontSize v, st => { st with settings := { st.settings with fontSize := v } }
  | .lineHeight v, st => { st with settings := { st.settings with lineHeight := v } }
  | .theme t, st => { st with settings := { st.settings with theme := t } }
  | .fontFamily f, st => { st with settings := { st.settings with fontFamily := f } }

/-- The page-index invariant, a page count of 0 counting as one degenerate
empty page. -/
def pageInvariant (st : ReaderState) : Prop :=
  0 ≤ st.currentPage ∧ st.currentPage < max (st.totalPages : Int) 1

instance (st : ReaderState) : Decidable (pageInvariant st) :=
  inferInstanceAs (Decidable (_ ∧ _))

/-!
Section: Content Fetcher (`loadBookContent`, lines 69-161)
-/

structure Book where
  id : String
  title : String
  authors : List String
  formats : List (String × String)
deriving DecidableEq

/-- JS property read on the formats object, a missing key reading as the
(falsy) empty string. -/
def getFormat (formats : List (String × String)) (key : String) : String :=
  match formats.lookup key with
  | some v => v
  | none => ""

/-- Content-URL selection (lines 75-93): `text/html`, then
`text/plain; charset=utf-8`, then `text/plain`, then the first key
containing `text` or `html`; `""` when nothing matches (the falsy value
that triggers the `No readable format` throw). -/
def selectContentUrl (formats : List (String × String)) : String :=
  if getFormat formats "text/html" ≠ "" then
    getFormat formats "text/html"
  else if getFormat formats "text/plain; charset=utf-8" ≠ "" then
    getFormat formats "text/plain; charset=utf-8"
  else if getFormat formats "text/plain" ≠ "" then
    getFormat formats "text/plain"
  else
    match (formats.map Prod.fst).filter
        (fun k => containsSub "text".data k.data || containsSub "html".data k.data) with
    | [] => ""
    | k :: _ => getFormat formats k

def hexDigit (n : Nat) : Char :=
  if n < 10 then Char.ofNat (48 + n) else Char.ofNat (55 + n)

/-- UTF-8 bytes of a character. -/
def utf8Bytes (c : Char) : List Nat :=
  let n := c.toNat
  if n < 128 then [n]
  else if n < 2048 then [192 + n / 64, 128 + n % 64]
  else if n < 65536 then [224 + n / 4096, 128 + n / 64 % 64, 128 + n % 64]
  else [240 + n / 262144, 128 + n / 4096 % 64, 128 + n / 64 % 64, 128 + n % 64]

/-- One character under `encodeURIComponent`. -/
def encChar (c : Char) : List Char :=
  if ('a' ≤ c && c ≤ 'z') || ('A' ≤ c && c ≤ 'Z') || isDigit09 c ||
      c = '-' || c = '_' || c = '.' || c = '!' || c = '~' || c = '*' ||
      c = Char.ofNat 39 || c = '(' || c = ')' then
    [c]
  else
    (utf8Bytes c).flatMap (fun b => ['%', hexDigit (b / 16), hexDigit (b % 16)])

def encodeURIComponent (s : String) : String :=
  String.mk (s.data.flatMap encChar)

/-- Drop an exact literal from the front, `none` when it is absent. -/
def dropLit (pat : List Char) (s : List Char) : Option (List Char) :=
  if List.isPrefixOf pat s then some (List.drop pat.length s) else none

/-- Outcome of one `fetch` call. -/
inductive FetchResult
  | netError
  | resp (ok : Bool) (body : String)
deriving DecidableEq

/-- The network, as a map from URL to outcome. -/
def Net := String → FetchResult

/-- The relay list (lines 100-106). -/
def corsProxies : List String :=
  ["https://cors-anywhere.herokuapp.com/",
   "https://api.codetabs.com/v1/proxy?quest=",
   "https://thingproxy.freeboard.io/fetch/",
   "https://cors.bridged.cc/",
   "https://yacdn.org/proxy/"]

/-- Model of `response.json()` followed by `.contents` in the
`allorigins` relay branch: accepts exactly an envelope
`\x7b"contents": "<text>"\x7d` with unescaped text, `none` otherwise (a
JSON failure throws in the source and moves to the next relay).  No URL in
`corsProxies` contains `allorigins`, so `loadBookContent` never reaches
this branch. -/
def jsonContents (body : String) : Option String :=
  match dropLit (Char.ofNat 123 :: "\"contents\": \"".data) body.data with
  | none => none
  | some r =>
    let content := r.takeWhile (fun c => c ≠ '"')
    match r.dropWhile (fun c => c ≠ '"') with
    | '"' :: c :: [] => if c = Char.ofNat 125 then some (String.mk content) else none
    | _ => none

/-- The per-relay payload extraction (lines 132-140): raw body for
`codetabs`/`bridged`, JSON envelope for `allorigins`, raw body otherwise. -/
def proxyExtract (proxy body : String) : Option String :=
  if containsSub "codetabs".data proxy.data || containsSub "bridged".data proxy.data then
    some body
  else if containsSub "allorigins".data proxy.data then
    jsonContents body
  else
    some body

/-- The relay loop (lines 124-150): each relay wraps the encoded content
URL; the first success wins; failures (network errors, non-success
statuses, JSON throws) move to the next relay.  Returns the attempted
relay URLs and the extracted text of the first success. -/
def proxyLoop (net : Net) (contentUrl : String) :
    List String → List String × Option String
  | [] => ([], none)
  | proxy :: rest =>
    let proxyUrl := proxy ++ encodeURIComponent contentUrl
    match net proxyUrl with
    | .resp true body =>
      match proxyExtract proxy body with
      | some text => ([proxyUrl], some text)
      | none =>
        let r := proxyLoop net contentUrl rest
        (proxyUrl :: r.1, r.2)
    | _ =>
      let r := proxyLoop net contentUrl rest
      (proxyUrl :: r.1, r.2)

/-- Model of `generateDemoContent` (lines 163-212), the synthetic fallback
passage. -/
def generateDemoContent (book : Book) : String :=
  "=== " ++ book.title ++ " ===\n\nBy " ++ String.intercalate ", " book.authors ++
  "\n\nThis is a demonstration of the book reader interface. \n\nDue to CORS (Cross-Origin Resource Sharing) restrictions, we cannot directly load the actual book content from external sources in this environment.\n\nIn a real implementation, you would need one of the following solutions:\n\n1. **Server-side proxy**: Create a backend endpoint that fetches the book content and serves it to your frontend\n2. **CORS-enabled API**: Use book APIs that properly support CORS\n3. **Local files**: Store books locally and serve them from your domain\n4. **Browser extension**: Create a browser extension that can bypass CORS restrictions\n\nThe book reader interface includes features like:\n- Multiple theme options (light, dark, sepia)\n- Adjustable font size and line height\n- Page navigation with progress tracking\n- Bookmark functionality\n- Reading progress persistence\n\nThis reader would work perfectly with properly accessible book content sources.\n\nFor Project Gutenberg books, you might want to:\n- Download books to your server first\n- Use their official API endpoints\n- Implement proper CORS handling on your backend\n\nThe interface is fully functional - it just needs a reliable content source that doesn\x27t have CORS restrictions.\n\nThis demonstrates the pagination system working with the demo content across multiple pages.\n\nEach page contains approximately 400 words for comfortable reading.\n\nThe navigation controls at the bottom allow you to move between pages easily.\n\nYou can also use the slider to jump to any specific page in the book.\n\nThe bookmark feature lets you save your current reading position.\n\nTheme customization helps reduce eye strain during long reading sessions.\n\nFont family options cater to different reading preferences - serif for traditional book feel, sans-serif for modern clarity, or monospace for code-like content.\n\nLine height adjustment improves readability based on personal preference and screen size.\n\nThe responsive design ensures the reader works well on both desktop and mobile devices."

/-- How an open attempt ends: either some text (with its classification
URL) is handed to `processBookContent`, or an error is surfaced. -/
inductive LoadOutcome
  | processed (text url : String)
  | errorShown (msg : String)
deriving DecidableEq

structure LoadResult where
  calls : List String
  outcome : LoadOutcome
deriving DecidableEq

/-- The `try` block of `loadBookContent` (lines 73-153): the URLs fetched,
and either the text/URL pair handed to `processBookContent` or the thrown
error message. -/
def loadBookContentTry (book : Book) (net : Net) :
    List String × Except String (String × String) :=
  let contentUrl := selectContentUrl book.formats
  if contentUrl = "" then
    ([], .error "No readable format found for this book")
  else
    match net contentUrl with
    | .resp true body => ([contentUrl], .ok (body, contentUrl))
    | _ =>
      match proxyLoop net contentUrl corsProxies with
      | (calls, some text) => (contentUrl :: calls, .ok (text, contentUrl))
      | (calls, none) =>
        (contentUrl :: calls,
         .error "Unable to fetch book content. All proxy services are currently unavailable.")

/-- Model of `loadBookContent` (lines 69-161): every thrown error — including the
`No readable format` one — is caught by the final handler (lines 155-160),
which processes the demo content under the URL `demo` instead of
surfacing an error. -/
def loadBookContent (book : Book) (net : Net) : LoadResult :=
  match loadBookContentTry book net with
  | (calls, .ok (text, url)) => ⟨calls, .processed text url⟩
  | (calls, .error _) => ⟨calls, .processed (generateDemoContent book) "demo"⟩

/-!
Section: BookService: search orchestration (part_000, lines 26-55, 201-211)
-/

structure SearchResp where
  books : List Book
  totalCount : Nat
  hasMore : Bool
deriving DecidableEq

/-- Model of `String.prototype.toLowerCase`, on its ASCII portion. -/
def jsToLower (s : String) : String :=
  String.mk (s.data.map Char.toLower)

/-- The case-insensitive `(title, first author)` deduplication key
(part_000, line 204); a missing first author renders as the string
`undefined` in the template literal. -/
def dedupKey (b : Book) : String :=
  jsToLower b.title ++ "-" ++
    (match b.authors with
     | [] => "undefined"
     | a :: _ => jsToLower a)

/-- The `filter`-with-`seen`-set loop of `deduplicateBooks`. -/
def dedupGo (seen : List String) : List Book → List Book
  | [] => []
  | b :: t =>
    if dedupKey b ∈ seen then dedupGo seen t
    else b :: dedupGo (dedupKey b :: seen) t

/-- Model of `BookService.deduplicateBooks` (lines 201-211). -/
def deduplicateBooks (books : List Book) : List Book :=
  dedupGo [] books

/-- Model of `BookService.searchBooks` (lines 26-55), over the two providers'
responses; the secondary (Open Library) response enters only in the
supplement branch. -/
def searchBooks (gutenberg openLibrary : SearchResp) : SearchResp :=
  if gutenberg.books.length < 10 then
    let uniqueBooks := deduplicateBooks (gutenberg.books ++ openLibrary.books)
    { books := uniqueBooks.take 20
      totalCount := gutenberg.totalCount + openLibrary.totalCount
      hasMore := 20 ≤ uniqueBooks.length }
  else
    gutenberg

/-!
Section: BookService: reading-progress persistence (part_000, lines 294-305)
-/

/-- The key-value store behind `localStorage`. -/
def Store := String → Option String

/-- Model of `localStorage.setItem`. -/
def setItem (k v : String) (st : Store) : Store :=
  fun k2 => if k2 = k then some v else st k2

structure Progress where
  page : Int
  isBookmarked : Bool
  lastRead : String
deriving DecidableEq

/-- Decimal digits of a natural number, most significant first. -/
def natDigits (n : Nat) : List Char :=
  if n < 10 then [Char.ofNat (48 + n)]
  else natDigits (n / 10) ++ [Char.ofNat (48 + n % 10)]
  decreasing_by exact Nat.div_lt_self (by omega) (by omega)

/-- Model of `JSON.stringify` of an integral JavaScript number. -/
def intRepr : Int → List Char
  | .ofNat n => natDigits n
  | .negSucc n => '-' :: natDigits (n + 1)

/-- Model of `JSON.stringify(\x7b page, isBookmarked, lastRead \x7d)` (line 300):
keys in insertion order, no spacing.  Faithful for `lastRead` strings
containing no quote and no backslash (no escaping is modelled). -/
def stringifyProgress (page : Int) (isBookmarked : Bool) (lastRead : String) :
    String :=
  String.mk (Char.ofNat 123 :: "\"page\":".data ++ intRepr page ++
    ",\"isBookmarked\":".data ++
    (if isBookmarked then "true".data else "false".data) ++
    ",\"lastRead\":\"".data ++ lastRead.data ++ ['"', Char.ofNat 125])

/-- Numeric value of a digit list. -/
def digitsVal (l : List Char) : Nat :=
  l.foldl (fun acc c => 10 * acc + (c.toNat - 48)) 0

/-- Parse the decimal integer (optional minus sign) at the front. -/
def parseIntFront (r0 : List Char) : Option (Int × List Char) :=
  let neg : Bool := r0.head? = some '-'
  let r1 := if neg then r0.tail else r0
  let ds := r1.takeWhile isDigit09
  if ds = [] then none
  else
    some (if neg then -(digitsVal ds : Int) else (digitsVal ds : Int),
      r1.dropWhile isDigit09)

/-- Parse the boolean literal at the front. -/
def parseBoolFront (r : List Char) : Option (Bool × List Char) :=
  match dropLit "true".data r with
  | some r2 => some (true, r2)
  | none =>
    match dropLit "false".data r with
    | some r2 => some (false, r2)
    | none => none

/-- The closing portion of the parse: the `lastRead` string up to its
closing quote, followed by the final brace. -/
def parseStrTail (r5 : List Char) : Option String :=
  match r5.dropWhile (fun c => c ≠ '"') with
  | '"' :: c :: [] =>
    if c = Char.ofNat 125 then some (String.mk (r5.takeWhile (fun c => c ≠ '"')))
    else none
  | _ => none

/-- Model of `JSON.parse` (line 296), specialized to the exact object shape
`saveReadingProgress` writes; `none` models a parse failure. -/
def parseProgress (s : String) : Option Progress :=
  (dropLit (Char.ofNat 123 :: "\"page\":".data) s.data).bind fun r0 =>
  (parseIntFront r0).bind fun pr =>
  (dropLit ",\"isBookmarked\":".data pr.2).bind fun r3 =>
  (parseBoolFront r3).bind fun br =>
  (dropLit ",\"lastRead\":\"".data br.2).bind fun r5 =>
  (parseStrTail r5).map fun str => ⟨pr.1, br.1, str⟩

/-- Model of `BookService.saveReadingProgress` (lines 299-305); `now` is the
ISO timestamp of `new Date()`. -/
def saveReadingProgress (bookId : String) (page : Int) (isBookmarked : Bool)
    (now : String) (st : Store) : Store :=
  setItem ("reading-progress-" ++ bookId)
    (stringifyProgress page isBookmarked now) st

/-- Model of `BookService.getReadingProgress` (lines 294-297). -/
def getReadingProgress (bookId : String) (st : Store) : Option Progress :=
  match st ("reading-progress-" ++ bookId) with
  | some s => parseProgress s
  | none => none

/-!
Section: Concrete fixtures used by witnesses and counterexamples
-/

/-- A store holding nothing. -/
def emptyStore : Store := fun _ => none

/-- A reader state on page 0 of a 1-page book. -/
def sliderState : ReaderState :=
  { content := "a".data
    currentPage := 0
    totalPages := 1
    isBookmarked := false
    settings :=
      { fontSize := 18, theme := .light, fontFamily := "serif", lineHeight := 1.6 } }

/-- A network on which every fetch fails. -/
def netDown : Net := fun _ => .netError

/-- A book whose formats map is empty. -/
def emptyFormatsBook : Book :=
  ⟨"book-1", "Some Title", ["Ann Author"], []⟩

/-- A book whose only format key contains neither `text` nor `html`. -/
def epubOnlyBook : Book :=
  ⟨"book-2", "Zeta", ["Bo"], [("application/epub+zip", "http://x/e.epub")]⟩

def htmlUrl : String := "http://example.com/book.html"

/-- A book resolving to `htmlUrl` through its `text/html` key. -/
def htmlBook : Book :=
  ⟨"book-3", "Tales", ["Cy"], [("text/html", htmlUrl)]⟩

/-- The URL the first relay wraps around `htmlUrl`. -/
def relay1Url : String :=
  "https://cors-anywhere.herokuapp.com/" ++ encodeURIComponent htmlUrl

/-- A JSON envelope body. -/
def envBody : String := "\x7b\"contents\": \"text\"\x7d"

/-- Direct fetch of `htmlUrl` has a non-success status; the first relay
succeeds with the JSON envelope as its raw body. -/
def net5 : Net := fun url =>
  if url = htmlUrl then .resp false ""
  else if url = relay1Url then .resp true envBody
  else .netError

def mobyLower : Book := ⟨"gutenberg-1", "Moby Dick", ["Herman Melville"], []⟩

def mobyUpper : Book := ⟨"gutenberg-2", "MOBY DICK", ["HERMAN MELVILLE"], []⟩

def fillerBook (i : String) : Book := ⟨i, i, ["X"], []⟩

/-- A primary response with ten records, two of which share the
case-insensitive `(title, first author)` key. -/
def gut10 : SearchResp :=
  ⟨[mobyLower, mobyUpper, fillerBook "f1", fillerBook "f2", fillerBook "f3",
    fillerBook "f4", fillerBook "f5", fillerBook "f6", fillerBook "f7",
    fillerBook "f8"], 10, false⟩

/-- A primary response with only the two duplicate records. -/
def gut2 : SearchResp := ⟨[mobyLower, mobyUpper], 2, false⟩

/-- An empty secondary response. -/
def olEmpty : SearchResp := ⟨[], 0, false⟩

end ReadLive

namespace ReadLive

/-!
Section: Theorems
-/

/-- C3: normalizing the markup input
`<h1>Intro</h1><p>Hello world.</p><p>Bye.</p>` produces exactly
`=== Intro ===\n\nHello world.\n\nBye.` — the heading becomes a banner,
paragraphs are separated by one blank line, and no tags remain. -/
theorem markup_scenario_normalizes_exactly :
    normalizeMarkup "<h1>Intro</h1><p>Hello world.</p><p>Bye.</p>".data =
      "=== Intro ===\n\nHello world.\n\nBye.".data := by
  decide

/-- The two independently-maintained pagination loops are the same
function of their four loop variables. -/
theorem buildPages_agree (ps : List (List Char)) :
    ∀ cur wc pages, buildPagesRender ps cur wc pages = buildPagesLoad ps cur wc pages := by
  induction ps with
  | nil =>
    intro cur wc pages
    simp [buildPagesRender, buildPagesLoad]
  | cons p rest ih =>
    intro cur wc pages
    simp only [buildPagesRender, buildPagesLoad]
    split_ifs <;> exact ih _ _ _

/-- C4: pagination is deterministic and the two pagination code paths
agree: on every content string the load-time page list (whose length
becomes `totalPages`) and the render-time page list (from which the
current page is read) are identical, so in particular the page counts
coincide. -/
theorem pagination_paths_agree (text : List Char) :
    renderPages text = processPagesLoad text ∧
      (renderPages text).length = (processPagesLoad text).length := by
  have h : renderPages text = processPagesLoad text := buildPages_agree _ _ _ _
  exact ⟨h, by rw [h]⟩

/-- C7 counterexample: the page slider handler stores the given index
without clamping, so seeking index `-1` on a valid 1-page session breaks
`0 ≤ currentPage`. -/
theorem seek_breaks_invariant :
    pageInvariant sliderState ∧ ¬ pageInvariant (seekSlider (-1) sliderState) := by
  decide

/-- C7 amended: `nextPage`/`prevPage` always preserve
`0 ≤ currentPage < max totalPages 1` (page count 0 acting as a single
degenerate page), but the slider seek stores the given index unclamped,
so the invariant holds after a seek exactly when the supplied index is
itself within range. -/
theorem nav_preserves_invariant_seek_needs_range :
    (∀ st : ReaderState, pageInvariant st →
      pageInvariant (handleNextPage st) ∧ pageInvariant (handlePrevPage st)) ∧
    (∀ (st : ReaderState) (v : Int),
      0 ≤ v → v < max (st.totalPages : Int) 1 → pageInvariant (seekSlider v st)) := by
  refine ⟨fun st h => ⟨?_, ?_⟩, fun st v h1 h2 => ⟨h1, h2⟩⟩
  · unfold handleNextPage pageInvariant at *
    split_ifs with hlt
    · simp only
      omega
    · exact h
  · unfold handlePrevPage pageInvariant at *
    split_ifs with hlt
    · simp only
      omega
    · exact h

/-- C7 amended, witness at the concrete 1-page session. -/
theorem nav_preserves_invariant_witness :
    pageInvariant (handleNextPage sliderState) ∧ pageInvariant (seekSlider 0 sliderState) :=
  ⟨(nav_preserves_invariant_seek_needs_range.1 sliderState (by decide)).1,
   nav_preserves_invariant_seek_needs_range.2 sliderState 0 (by decide) (by decide)⟩

/-- C1 counterexample: with an empty formats map, the
`No readable format found for this book` error is thrown before any
network call, but it is caught by `loadBookContent`'s own catch handler:
no fetch happens and the open attempt ends with the demo content
processed under the `demo` URL — not with a terminal open failure. -/
theorem no_format_is_absorbed_not_terminal :
    loadBookContent emptyFormatsBook netDown =
        ⟨[], .processed (generateDemoContent emptyFormatsBook) "demo"⟩ ∧
      (loadBookContent emptyFormatsBook netDown).outcome ≠
        LoadOutcome.errorShown "No readable format found for this book" := by
  refine ⟨rfl, fun h => ?_⟩
  rw [show (loadBookContent emptyFormatsBook netDown).outcome =
      LoadOutcome.processed (generateDemoContent emptyFormatsBook) "demo" from rfl] at h
  exact LoadOutcome.noConfusion h

/-- C1 amended: whenever format selection produces no readable URL, the
`No readable format found for this book` error is thrown inside the open
attempt before any network call, but it is swallowed by the surrounding
catch: the attempt performs no fetch and completes with the synthetic demo
content (classified under the URL `demo`) instead of surfacing a terminal
failure. -/
theorem no_readable_format_goes_demo (book : Book) (net : Net)
    (h : selectContentUrl book.formats = "") :
    loadBookContentTry book net =
        ([], .error "No readable format found for this book") ∧
      loadBookContent book net =
        ⟨[], .processed (generateDemoContent book) "demo"⟩ := by
  have h1 : loadBookContentTry book net =
      ([], .error "No readable format found for this book") := by
    unfold loadBookContentTry
    simp [h]
  exact ⟨h1, by unfold loadBookContent; rw [h1]⟩

/-- C1 amended, witness: a book whose only format key contains neither
`text` nor `html` resolves no URL and still opens with demo content. -/
theorem no_readable_format_goes_demo_witness :
    loadBookContent epubOnlyBook netDown =
      ⟨[], .processed (generateDemoContent epubOnlyBook) "demo"⟩ :=
  (no_readable_format_goes_demo epubOnlyBook netDown (by decide)).2

/-- C5 counterexample: with a failing direct fetch and the first relay
returning a success whose body is the JSON envelope
`\x7b"contents": "text"\x7d`, the fetched text is the raw envelope
string, not `text` — the envelope-unwrapping branch is keyed on relay
URLs containing `allorigins`, which no configured relay matches.  The
classification URL is still the original content URL. -/
theorem relay_envelope_not_unwrapped :
    loadBookContent htmlBook net5 =
        ⟨[htmlUrl, relay1Url], .processed envBody htmlUrl⟩ ∧
      envBody ≠ "text" := by
  constructor
  · decide
  · decide

/-- C5 amended: if the direct fetch of the selected content URL returns a
non-success status and the first relay returns success, the fetched text
is the relay's raw response body (even when that body is a JSON
envelope), because no relay URL in the configured list contains
`allorigins`; the text is processed under the original content URL, so
the markup/plain classification follows the original URL's shape. -/
theorem relay_success_uses_raw_body (book : Book) (net : Net) (body b0 : String)
    (hsel : selectContentUrl book.formats ≠ "")
    (hdirect : net (selectContentUrl book.formats) = .resp false b0)
    (hrelay : net ("https://cors-anywhere.herokuapp.com/" ++
        encodeURIComponent (selectContentUrl book.formats)) = .resp true body) :
    loadBookContent book net =
        ⟨[selectContentUrl book.formats,
          "https://cors-anywhere.herokuapp.com/" ++
            encodeURIComponent (selectContentUrl book.formats)],
         .processed body (selectContentUrl book.formats)⟩ ∧
      (∀ p ∈ corsProxies, containsSub "allorigins".data p.data = false) := by
  refine ⟨?_, by decide⟩
  have e1 : proxyExtract "https://cors-anywhere.herokuapp.com/" body = some body := by
    have c1 : containsSub "codetabs".data "https://cors-anywhere.herokuapp.com/".data =
        false := by decide
    have c2 : containsSub "bridged".data "https://cors-anywhere.herokuapp.com/".data =
        false := by decide
    have c3 : containsSub "allorigins".data "https://cors-anywhere.herokuapp.com/".data =
        false := by decide
    simp [proxyExtract, c1, c2, c3]
  simp only [loadBookContent, loadBookContentTry, corsProxies, proxyLoop]
  simp [hsel, hdirect, hrelay, e1]

/-- C5 amended, witness at the concrete book and network. -/
theorem relay_success_uses_raw_body_witness :
    loadBookContent htmlBook net5 =
      ⟨[htmlUrl, relay1Url], .processed envBody htmlUrl⟩ := by
  have h := relay_success_uses_raw_body htmlBook net5 envBody ""
    (by decide) (by decide) (by decide)
  exact h.1

/-- C2 counterexample: normalization is not idempotent on either path.
On the markup path, entity decoding turns `&lt;b&gt;x` into `<b>x`, which
a second pass strips to `x`; on the plain path, the banner produced for
`CHAPTER I` itself re-matches the chapter rule on a second pass. -/
theorem normalize_not_idempotent :
    normalizeMarkup (normalizeMarkup "&lt;b&gt;x".data) ≠
        normalizeMarkup "&lt;b&gt;x".data ∧
      normalizePlain (normalizePlain "CHAPTER I".data) ≠
        normalizePlain "CHAPTER I".data := by
  decide

/-- A replacement pass leaves text alone when its matcher never fires. -/
theorem scanAux_of_no_match (m : List Char → Option (List Char × List Char)) :
    ∀ (fuel : Nat) (s : List Char), hasMatch m s = false → scanAux m fuel s = s := by
  intro fuel
  induction fuel with
  | zero => intro s _; rfl
  | succ n ih =>
    intro s hs
    cases s with
    | nil =>
      have hm : m [] = none := by
        cases hm : m [] with
        | none => rfl
        | some v => simp [hasMatch, hm] at hs
      simp [scanAux, hm]
    | cons c t =>
      have hs1 : (m (c :: t)).isSome = false ∧ hasMatch m t = false := by
        simpa [hasMatch, Bool.or_eq_false_iff] using hs
      have hm : m (c :: t) = none := by
        cases hm : m (c :: t) with
        | none => rfl
        | some v => rw [hm] at hs1; simp at hs1
      simp [scanAux, hm, ih t hs1.2]

theorem replacePass_of_no_match (m : List Char → Option (List Char × List Char))
    (s : List Char) (h : hasMatch m s = false) : replacePass m s = s :=
  scanAux_of_no_match m _ s h

/-- A tail inherits the absence of a substring. -/
theorem containsSub_tail {pat : List Char} {c : Char} {t : List Char}
    (h : containsSub pat (c :: t) = false) : containsSub pat t = false := by
  simp only [containsSub, Bool.or_eq_false_iff] at h
  exact h.2

/-- The space-collapsing pass is the identity on tab-free text with no
two adjacent spaces (each single space is matched and replaced by
itself). -/
theorem spaceRun_scan_id :
    ∀ (fuel : Nat) (s : List Char), '\t' ∉ s → containsSub [' ', ' '] s = false →
      scanAux mSpaceRun fuel s = s := by
  intro fuel
  induction fuel with
  | zero => intro s _ _; rfl
  | succ n ih =>
    intro s ht hd
    cases s with
    | nil => simp [scanAux, mSpaceRun]
    | cons c t =>
      have ht' : '\t' ∉ t := fun hh => ht (List.mem_cons_of_mem _ hh)
      have hd' : containsSub [' ', ' '] t = false := containsSub_tail hd
      by_cases hc : c = ' '
      · subst hc
        have hdrop : t.dropWhile isSpTab = t := by
          cases t with
          | nil => rfl
          | cons c2 t2 =>
            have h2 : c2 ≠ ' ' := by
              intro hh
              subst hh
              simp [containsSub, List.isPrefixOf] at hd
            have h3 : c2 ≠ '\t' := by
              intro hh
              exact ht (hh ▸ List.mem_cons_of_mem _ (List.mem_cons_self _ _))
            simp [List.dropWhile_cons, isSpTab, h2, h3]
        have hm : mSpaceRun (' ' :: t) = some ([' '], t) := by
          simp [mSpaceRun, isSpTab, List.dropWhile_cons, hdrop]
        simp [scanAux, hm, ih t ht' hd']
      · have hc2 : c ≠ '\t' := fun hh => ht (hh ▸ List.mem_cons_self _ _)
        have hm : mSpaceRun (c :: t) = none := by
          simp [mSpaceRun, isSpTab, hc, hc2]
        simp [scanAux, hm, ih t ht' hd']

theorem spaceRun_pass_id (s : List Char) (ht : '\t' ∉ s)
    (hd : containsSub [' ', ' '] s = false) : replacePass mSpaceRun s = s :=
  spaceRun_scan_id _ s ht hd

/-- The all-caps-heading pass is the identity when its rule never fires
along the scanner's line-start walk. -/
theorem capsScan_of_no_find :
    ∀ (fuel : Nat) (st : Bool) (s : List Char), capsFindAux st s = false →
      capsScanAux fuel st s = s := by
  intro fuel
  induction fuel with
  | zero => intro st s _; rfl
  | succ n ih =>
    intro st s h
    cases s with
    | nil => cases st <;> rfl
    | cons c t =>
      have h2 : (st && (capsMatch (c :: t)).isSome) = false ∧
          capsFindAux (c == '\n') t = false := by
        simpa [capsFindAux, Bool.or_eq_false_iff] using h
      by_cases hst : st
      · have hm : capsMatch (c :: t) = none := by
          cases hm : capsMatch (c :: t) with
          | none => rfl
          | some v => rw [hst, hm] at h2; simp at h2
        · simp [capsScanAux, hst, hm, ih _ t h2.2]
      · simp [capsScanAux, hst, ih _ t h2.2]

theorem capsPass_of_no_find (s : List Char) (h : capsFindAux true s = false) :
    capsPass s = s :=
  capsScan_of_no_find _ true s h

/-- C2 amended: re-normalization is the identity on texts already in
fully-normalized form — texts on which none of the normalizer's rewrite
rules fires (no tag or entity pattern, no chapter or all-caps heading
marker, no carriage return, no tab, no two adjacent spaces, no
space-newline adjacency, no three consecutive newlines) and with no
surrounding whitespace; this holds on both the markup and the plain
path.  Unrestricted idempotence fails (see the counterexample). -/
theorem normalize_fixes_fully_normalized (s : List Char)
    (hScript : hasMatch (mStripBlock "<script".data "</script>".data) s = false)
    (hStyle : hasMatch (mStripBlock "<style".data "</style>".data) s = false)
    (hHead : hasMatch mHeading s = false)
    (hClosP : hasMatch mClosP s = false)
    (hOpenP : hasMatch mOpenP s = false)
    (hBr : hasMatch mBr s = false)
    (hTag : hasMatch mTag s = false)
    (hNbsp : hasMatch (mLit "&nbsp;".data " ".data) s = false)
    (hAmp : hasMatch (mLit "&amp;".data "&".data) s = false)
    (hLt : hasMatch (mLit "&lt;".data "<".data) s = false)
    (hGt : hasMatch (mLit "&gt;".data ">".data) s = false)
    (hQuot : hasMatch (mLit "&quot;".data "\"".data) s = false)
    (hApos : hasMatch (mLit "&apos;".data [Char.ofNat 39]) s = false)
    (hTab : '\t' ∉ s)
    (hDSp : containsSub [' ', ' '] s = false)
    (hNlSp : hasMatch mNlSpace s = false)
    (hSpNl : hasMatch mSpaceNl s = false)
    (hNl3 : hasMatch mNl3 s = false)
    (hCrlf : hasMatch (mLit "\r\n".data "\n".data) s = false)
    (hCr : hasMatch (mLit "\r".data "\n".data) s = false)
    (hChap : hasMatch mChapter s = false)
    (hCaps : capsFindAux true s = false)
    (hTrim : trimWS s = s) :
    normalizeMarkup s = s ∧ normalizePlain s = s := by
  constructor
  · unfold normalizeMarkup
    simp only [replacePass_of_no_match _ _ hScript, replacePass_of_no_match _ _ hStyle,
      replacePass_of_no_match _ _ hHead, replacePass_of_no_match _ _ hClosP,
      replacePass_of_no_match _ _ hOpenP, replacePass_of_no_match _ _ hBr,
      replacePass_of_no_match _ _ hTag, replacePass_of_no_match _ _ hNbsp,
      replacePass_of_no_match _ _ hAmp, replacePass_of_no_match _ _ hLt,
      replacePass_of_no_match _ _ hGt, replacePass_of_no_match _ _ hQuot,
      replacePass_of_no_match _ _ hApos, spaceRun_pass_id _ hTab hDSp,
      replacePass_of_no_match _ _ hNlSp, replacePass_of_no_match _ _ hSpNl,
      replacePass_of_no_match _ _ hNl3]
    exact hTrim
  · unfold normalizePlain
    simp only [replacePass_of_no_match _ _ hCrlf, replacePass_of_no_match _ _ hCr,
      replacePass_of_no_match _ _ hChap, capsPass_of_no_find _ hCaps,
      spaceRun_pass_id _ hTab hDSp, replacePass_of_no_match _ _ hNl3]
    exact hTrim

/-- C2 amended, witness: the normalized text of the C3 scenario is a
fixed point of both normalization paths. -/
theorem normalize_fixes_fully_normalized_witness :
    normalizeMarkup "=== Intro ===\n\nHello world.\n\nBye.".data =
        "=== Intro ===\n\nHello world.\n\nBye.".data ∧
      normalizePlain "=== Intro ===\n\nHello world.\n\nBye.".data =
        "=== Intro ===\n\nHello world.\n\nBye.".data :=
  normalize_fixes_fully_normalized _ (by decide) (by decide) (by decide) (by decide)
    (by decide) (by decide) (by decide) (by decide) (by decide) (by decide) (by decide)
    (by decide) (by decide) (by decide) (by decide) (by decide) (by decide) (by decide)
    (by decide) (by decide) (by decide) (by decide) (by decide)

/-- C6 counterexample: when the primary provider already returns ten
records, `searchBooks` returns its list unchanged — the two records with
case-insensitively equal `(title, first author)` keys both survive, so
neither the deduplication nor the 20-record cap applies on that branch. -/
theorem primary_branch_skips_dedup :
    (searchBooks gut10 olEmpty).books.length = 10 ∧
      ((searchBooks gut10 olEmpty).books.filter
        (fun b => dedupKey b = dedupKey mobyLower)).length = 2 := by
  decide

/-- Books surviving `dedupGo` carry keys outside the seen set. -/
theorem dedupGo_key_not_seen (l : List Book) :
    ∀ (seen : List String) (b : Book), b ∈ dedupGo seen l → dedupKey b ∉ seen := by
  induction l with
  | nil =>
    intro seen b hb
    simp [dedupGo] at hb
  | cons x t ih =>
    intro seen b hb
    simp only [dedupGo] at hb
    split_ifs at hb with hx
    · exact ih seen b hb
    · rcases List.mem_cons.1 hb with rfl | hb2
      · exact hx
      · exact fun hmem => ih _ b hb2 (List.mem_cons_of_mem _ hmem)

/-- The `dedupGo` output has pairwise distinct deduplication keys. -/
theorem dedupGo_pairwise (l : List Book) :
    ∀ seen, (dedupGo seen l).Pairwise (fun a b => dedupKey a ≠ dedupKey b) := by
  induction l with
  | nil =>
    intro seen
    simp [dedupGo]
  | cons x t ih =>
    intro seen
    simp only [dedupGo]
    split_ifs with hx
    · exact ih seen
    · refine List.Pairwise.cons (fun b hb heq => ?_) (ih _)
      exact dedupGo_key_not_seen t _ b hb (heq ▸ List.mem_cons_self _ _)

/-- C6 amended: `searchBooks` queries the primary provider and consults
the secondary one only when the primary yields fewer than 10 records; on
that supplement branch the combined list is deduplicated by the
case-insensitive `(title, first author)` key (the result has pairwise
distinct keys, so a `Moby Dick`/`MOBY DICK` pair keeps one survivor) and
capped at 20 records.  When the primary returns 10 or more records, its
response is returned unchanged — with no deduplication and no cap. -/
theorem searchBooks_orchestration :
    (∀ gut ol : SearchResp, 10 ≤ gut.books.length → searchBooks gut ol = gut) ∧
    (∀ gut ol : SearchResp, gut.books.length < 10 →
      (searchBooks gut ol).books =
          (deduplicateBooks (gut.books ++ ol.books)).take 20 ∧
        (searchBooks gut ol).books.length ≤ 20 ∧
        (searchBooks gut ol).books.Pairwise (fun a b => dedupKey a ≠ dedupKey b)) := by
  constructor
  · intro gut ol h
    unfold searchBooks
    rw [if_neg (by omega)]
  · intro gut ol h
    have hb : (searchBooks gut ol).books =
        (deduplicateBooks (gut.books ++ ol.books)).take 20 := by
      unfold searchBooks
      rw [if_pos h]
    refine ⟨hb, ?_, ?_⟩
    · rw [hb]
      exact List.length_take_le _ _
    · rw [hb]
      exact List.Pairwise.sublist (List.take_sublist _ _) (dedupGo_pairwise _ _)

/-- C6 amended, witness: a ten-record primary is passed through; a
two-record primary triggers the supplement branch with key-distinct
output. -/
theorem searchBooks_orchestration_witness :
    searchBooks gut10 olEmpty = gut10 ∧
      (searchBooks gut2 olEmpty).books.Pairwise
        (fun a b => dedupKey a ≠ dedupKey b) :=
  ⟨searchBooks_orchestration.1 gut10 olEmpty (by decide),
   (searchBooks_orchestration.2 gut2 olEmpty (by decide)).2.2⟩

/-- C8: every settings update (font size, theme, font family, line
height) leaves the page count, the current page index, and the rendered
page text unchanged, and the pagination budget is the constant 400. -/
theorem settings_updates_are_presentation_only (ch : SettingChange) (st : ReaderState) :
    (applySetting ch st).totalPages = st.totalPages ∧
    (applySetting ch st).currentPage = st.currentPage ∧
    getCurrentPageContent (applySetting ch st).content (applySetting ch st).currentPage =
      getCurrentPageContent st.content st.currentPage ∧
    wordsPerPage = 400 := by
  cases ch <;> simp [applySetting, wordsPerPage]

/-- Digit characters round-trip through their codes. -/
theorem digit_char_spec (d : Nat) (h : d < 10) :
    (Char.ofNat (48 + d)).toNat = 48 + d ∧ isDigit09 (Char.ofNat (48 + d)) = true := by
  interval_cases d <;> exact ⟨rfl, rfl⟩

theorem digitsVal_append (l : List Char) (c : Char) :
    digitsVal (l ++ [c]) = 10 * digitsVal l + (c.toNat - 48) := by
  simp [digitsVal, List.foldl_append]

/-- The function `natDigits` produces a nonempty digit string whose value is `n`. -/
theorem natDigits_spec (n : Nat) :
    (∀ c ∈ natDigits n, isDigit09 c = true) ∧
      digitsVal (natDigits n) = n ∧ natDigits n ≠ [] := by
  induction n using Nat.strong_induction_on with
  | _ n ih =>
    rw [natDigits]
    split_ifs with h
    · refine ⟨?_, ?_, by simp⟩
      · intro c hc
        simp only [List.mem_singleton] at hc
        subst hc
        exact (digit_char_spec n h).2
      · simp only [digitsVal, List.foldl_cons, List.foldl_nil, Nat.mul_zero, Nat.zero_add]
        rw [(digit_char_spec n h).1]
        omega
    · have hlt : n / 10 < n := Nat.div_lt_self (by omega) (by omega)
      obtain ⟨ihd, ihv, _⟩ := ih (n / 10) hlt
      have hm : n % 10 < 10 := Nat.mod_lt _ (by omega)
      refine ⟨?_, ?_, by simp⟩
      · intro c hc
        rcases List.mem_append.1 hc with h1 | h2
        · exact ihd c h1
        · simp only [List.mem_singleton] at h2
          subst h2
          exact (digit_char_spec _ hm).2
      · rw [digitsVal_append, ihv, (digit_char_spec _ hm).1]
        omega

/-- Facts about `takeWhile`/`dropWhile` passing over a block of satisfying characters. -/
theorem takeWhile_append_all (p : Char → Bool) (a rest : List Char)
    (ha : ∀ c ∈ a, p c = true) :
    (a ++ rest).takeWhile p = a ++ rest.takeWhile p ∧
      (a ++ rest).dropWhile p = rest.dropWhile p := by
  induction a with
  | nil => simp
  | cons x t ih =>
    have hx : p x = true := ha x (List.mem_cons_self _ _)
    obtain ⟨h1, h2⟩ := ih (fun c hc => ha c (List.mem_cons_of_mem _ hc))
    simp [List.takeWhile_cons, List.dropWhile_cons, hx, h1, h2]

theorem dropLit_append (pat rest : List Char) :
    dropLit pat (pat ++ rest) = some rest := by
  have h : List.isPrefixOf pat (pat ++ rest) = true := by
    induction pat with
    | nil => simp [List.isPrefixOf]
    | cons c t ih => simp [List.isPrefixOf, ih]
  simp [dropLit, h, List.drop_left]

theorem dropLit_mismatch (a b : Char) (pa ps : List Char) (h : (a == b) = false) :
    dropLit (a :: pa) (b :: ps) = none := by
  simp [dropLit, List.isPrefixOf, h]

/-- The parser `parseIntFront` inverts `intRepr` when the following text starts with
a non-digit character. -/
theorem parseIntFront_intRepr (pg : Int) (rest : List Char)
    (hrest : ∀ c, rest.head? = some c → isDigit09 c = false) :
    parseIntFront (intRepr pg ++ rest) = some (pg, rest) := by
  have restSplit : rest.takeWhile isDigit09 = [] ∧ rest.dropWhile isDigit09 = rest := by
    cases rest with
    | nil => simp
    | cons x t => simp [List.takeWhile_cons, List.dropWhile_cons, hrest x rfl]
  cases pg with
  | ofNat n =>
    obtain ⟨hdig, hval, hne⟩ := natDigits_spec n
    obtain ⟨hTake, hDrop⟩ := takeWhile_append_all isDigit09 (natDigits n) rest hdig
    cases hD : natDigits n with
    | nil => exact absurd hD hne
    | cons d ds =>
      have hd_digit : isDigit09 d = true := hdig d (by rw [hD]; exact List.mem_cons_self _ _)
      have hd_ne : (d = '-') = False := by
        refine eq_false fun hh => ?_
        rw [hh] at hd_digit
        exact absurd hd_digit (by decide)
      rw [hD] at hTake hDrop hval
      unfold parseIntFront
      rw [show intRepr (Int.ofNat n) = natDigits n from rfl, hD]
      simp only [List.cons_append] at hTake hDrop ⊢
      simp only [List.head?_cons, Option.some.injEq, hd_ne, decide_False,
        Bool.false_eq_true, if_false, hTake, hDrop, restSplit.1, restSplit.2,
        List.append_nil]
      rw [if_neg (by simp), hval]
      rfl
  | negSucc n =>
    obtain ⟨hdig, hval, hne⟩ := natDigits_spec (n + 1)
    obtain ⟨hTake, hDrop⟩ := takeWhile_append_all isDigit09 (natDigits (n + 1)) rest hdig
    unfold parseIntFront
    rw [show intRepr (Int.negSucc n) = '-' :: natDigits (n + 1) from rfl]
    simp only [List.cons_append, List.head?_cons, Option.some.injEq, eq_self_iff_true,
      decide_True, if_true, List.tail_cons, hTake, hDrop, restSplit.1, restSplit.2,
      List.append_nil, if_neg hne, hval]
    simp only [Option.some.injEq, Prod.mk.injEq, and_true, Int.negSucc_eq]
    push_cast
    ring

/-- The parser `parseBoolFront` inverts the boolean serialization. -/
theorem parseBoolFront_repr (bm : Bool) (rest : List Char) :
    parseBoolFront ((if bm then "true".data else "false".data) ++ rest) =
      some (bm, rest) := by
  cases bm
  · have h1 : ("false".data ++ rest : List Char) = 'f' :: ("alse".data ++ rest) := rfl
    have h2 : dropLit "true".data ('f' :: ("alse".data ++ rest)) = none :=
      dropLit_mismatch 't' 'f' _ _ (by decide)
    simp only [Bool.false_eq_true, if_false, parseBoolFront, h1, h2]
    rw [show ('f' :: ("alse".data ++ rest) : List Char) = "false".data ++ rest from rfl,
      dropLit_append]
  · simp only [if_true, parseBoolFront]
    rw [dropLit_append]

/-- The string tail parses back to the serialized string. -/
theorem parseStrTail_repr (now : String) (hq : '"' ∉ now.data) :
    parseStrTail (now.data ++ ['"', Char.ofNat 125]) = some now := by
  have hqp : ∀ c ∈ now.data, (fun c => decide ¬(c = '"')) c = true := by
    intro c hc
    simp only [decide_not, Bool.not_eq_true']
    exact decide_eq_false fun hcq => hq (hcq ▸ hc)
  have hTk := takeWhile_append_all (fun c => decide ¬(c = '"')) now.data
    ['"', Char.ofNat 125] hqp
  unfold parseStrTail
  rw [show (List.dropWhile (fun c => decide ¬(c = '"'))
        (now.data ++ ['"', Char.ofNat 125]) : List Char) = ['"', Char.ofNat 125] from
      hTk.2.trans rfl,
    show (List.takeWhile (fun c => decide ¬(c = '"'))
        (now.data ++ ['"', Char.ofNat 125]) : List Char) = now.data from
      hTk.1.trans (by simp)]
  rfl

/-- Parsing inverts serialization for timestamps without a quote. -/
theorem parse_stringify (page : Int) (bm : Bool) (now : String)
    (hq : '"' ∉ now.data) :
    parseProgress (stringifyProgress page bm now) = some ⟨page, bm, now⟩ := by
  have hL : (stringifyProgress page bm now).data =
      (Char.ofNat 123 :: "\"page\":".data) ++ (intRepr page ++
        (",\"isBookmarked\":".data ++ ((if bm then "true".data else "false".data) ++
          (",\"lastRead\":\"".data ++ (now.data ++ ['"', Char.ofNat 125]))))) := by
    simp [stringifyProgress, List.append_assoc]
  have hInt := parseIntFront_intRepr page
    (",\"isBookmarked\":".data ++ ((if bm then "true".data else "false".data) ++
      (",\"lastRead\":\"".data ++ (now.data ++ ['"', Char.ofNat 125]))))
    (by
      intro c hc
      have h2 : some c = some ',' := hc.symm.trans rfl
      rw [Option.some.inj h2]
      decide)
  have hBool := parseBoolFront_repr bm
    (",\"lastRead\":\"".data ++ (now.data ++ ['"', Char.ofNat 125]))
  have hStr := parseStrTail_repr now hq
  unfold parseProgress
  rw [hL]
  simp only [dropLit_append, Option.some_bind, hInt, hBool, hStr]
  rfl

/-- C10: reading-progress persistence round-trips: after
`saveReadingProgress(bookId, page, isBookmarked)` (with `now` the
timestamp written into `lastRead`, containing no quote or backslash so
the unescaped serialization is faithful), `getReadingProgress(bookId)`
returns a record whose `page` and `isBookmarked` equal the saved values,
and the stored progress of every other book id is unchanged. -/
theorem progress_roundtrip (st : Store) (bookId otherId : String) (page : Int)
    (bm : Bool) (now : String) (hq : '"' ∉ now.data) (_hbsl : '\\' ∉ now.data)
    (hne : otherId ≠ bookId) :
    getReadingProgress bookId (saveReadingProgress bookId page bm now st) =
        some ⟨page, bm, now⟩ ∧
      getReadingProgress otherId (saveReadingProgress bookId page bm now st) =
        getReadingProgress otherId st := by
  constructor
  · simp only [getReadingProgress, saveReadingProgress, setItem]
    rw [if_pos trivial]
    exact parse_stringify page bm now hq
  · have hkey : ("reading-progress-" ++ otherId) ≠ ("reading-progress-" ++ bookId) := by
      intro heq
      apply hne
      have h2 := congrArg String.data heq
      simp only [String.data_append] at h2
      have h3 := List.append_cancel_left h2
      cases otherId
      cases bookId
      exact congrArg String.mk h3
    simp only [getReadingProgress, saveReadingProgress, setItem]
    rw [if_neg hkey]

/-- C10 witness at a concrete store and values. -/
theorem progress_roundtrip_witness :
    getReadingProgress "b9" (saveReadingProgress "b9" 7 true "2024" emptyStore) =
        some ⟨7, true, "2024"⟩ ∧
      getReadingProgress "b8" (saveReadingProgress "b9" 7 true "2024" emptyStore) =
        getReadingProgress "b8" emptyStore :=
  progress_roundtrip emptyStore "b9" "b8" 7 true "2024" (by decide) (by decide)
    (by decide)

/-!
Support for the page word-budget invariant: word counting, trimming, and
paragraph-splitting lemmas.
-/

/-- Unfolding lemma for the word-start counter. -/
theorem cwAux_cons (b : Bool) (c : Char) (t : List Char) :
    cwAux b (c :: t) =
      if isWS c = true then cwAux false t
      else (if b = true then 0 else 1) + cwAux true t := rfl

/-- Whitespace-only text has no words. -/
theorem cwAux_allWS (l : List Char) (h : ∀ c ∈ l, isWS c = true) :
    ∀ b, cwAux b l = 0 := by
  induction l with
  | nil => intro b; rfl
  | cons c t ih =>
    intro b
    have hc : isWS c = true := h c (List.mem_cons_self _ _)
    simp only [cwAux, hc, if_true]
    exact ih (fun x hx => h x (List.mem_cons_of_mem _ hx)) false

/-- Starting inside a word can only lower the word count. -/
theorem cwAux_true_le_false (l : List Char) : cwAux true l ≤ cwAux false l := by
  induction l with
  | nil => exact le_refl _
  | cons c t ih =>
    by_cases hc : isWS c = true
    · simp [cwAux, hc]
    · simp only [cwAux, hc, if_false, Bool.not_eq_true]
      simp only [if_true, if_false, Bool.false_eq_true]
      omega

/-- Word counts are subadditive under concatenation. -/
theorem cwAux_append_le (a : List Char) :
    ∀ (c : List Char) (b : Bool), cwAux b (a ++ c) ≤ cwAux b a + cwAux false c := by
  induction a with
  | nil =>
    intro c b
    cases b
    · simp [cwAux]
    · simpa [cwAux] using cwAux_true_le_false c
  | cons x t ih =>
    intro c b
    by_cases hx : isWS x = true
    · simp only [List.cons_append, cwAux, hx, if_true]
      exact ih c false
    · have h1 := ih c true
      simp only [List.cons_append, List.append_eq, cwAux, hx, if_false] at *
      simp only [if_true, if_false, Bool.false_eq_true] at *
      omega

/-- Dropping leading whitespace preserves the word count. -/
theorem cwAux_dropWhileWS (l : List Char) :
    cwAux false (l.dropWhile isWS) = cwAux false l := by
  induction l with
  | nil => rfl
  | cons c t ih =>
    by_cases hc : isWS c = true
    · simp [List.dropWhile_cons, cwAux, hc, ih]
    · simp [List.dropWhile_cons, hc]

/-- An empty `trimRight` means the text was all whitespace. -/
theorem trimRight_eq_nil (l : List Char) (h : trimRight l = []) :
    ∀ c ∈ l, isWS c = true := by
  induction l with
  | nil => simp
  | cons c t ih =>
    simp only [trimRight] at h
    cases ht : trimRight t with
    | nil =>
      rw [ht] at h
      by_cases hc : isWS c = true
      · intro x hx
        rcases List.mem_cons.1 hx with rfl | hx2
        · exact hc
        · exact ih ht x hx2
      · rw [if_neg hc] at h
        exact absurd h (by simp)
    | cons r rs =>
      rw [ht] at h
      exact absurd h (by simp)

/-- Trimming trailing whitespace preserves the word count. -/
theorem cwAux_trimRight (l : List Char) : ∀ b, cwAux b (trimRight l) = cwAux b l := by
  induction l with
  | nil => intro b; rfl
  | cons c t ih =>
    intro b
    simp only [trimRight]
    cases ht : trimRight t with
    | nil =>
      have htws : ∀ x ∈ t, isWS x = true := trimRight_eq_nil t ht
      by_cases hc : isWS c = true
      · simp only [if_pos hc, cwAux, hc, if_true]
        exact (cwAux_allWS t htws false).symm
      · simp only [if_neg hc, cwAux, hc, if_false]
        rw [cwAux_allWS t htws true]
        rfl
    | cons r rs =>
      have ihb : ∀ b2, cwAux b2 (r :: rs) = cwAux b2 t := fun b2 => ht ▸ ih b2
      show cwAux b (c :: r :: rs) = cwAux b (c :: t)
      by_cases hc : isWS c = true
      · rw [cwAux_cons b c (r :: rs), cwAux_cons b c t, if_pos hc, if_pos hc]
        exact ihb false
      · rw [cwAux_cons b c (r :: rs), cwAux_cons b c t, if_neg hc, if_neg hc, ihb true]

/-- Trimming preserves the word count. -/
theorem countWords_trimWS (l : List Char) : countWords (trimWS l) = countWords l := by
  unfold countWords trimWS
  rw [cwAux_trimRight, cwAux_dropWhileWS]

/-- An empty trim means the text was all whitespace. -/
theorem allWS_of_trimWS_nil (l : List Char) (h : trimWS l = []) :
    ∀ c ∈ l, isWS c = true := by
  unfold trimWS at h
  have hdrop := trimRight_eq_nil _ h
  intro c hc
  rcases List.mem_append.1 ((List.takeWhile_append_dropWhile (p := isWS) (l := l)) ▸ hc) with
    h1 | h2
  · exact List.mem_takeWhile_imp h1
  · exact hdrop c h2

/-- Unfolding lemma for the double-newline test. -/
theorem hasDD_cons (c : Char) (t : List Char) :
    hasDD (c :: t) =
      ((decide (c = '\n') && decide (t.head? = some '\n')) || hasDD t) := rfl

/-- A tail retains the absence of a double newline. -/
theorem hasDD_tail {c : Char} {t : List Char} (h : hasDD (c :: t) = false) :
    hasDD t = false := by
  rw [hasDD_cons, Bool.or_eq_false_iff] at h
  exact h.2

/-- A prefix retains the absence of a double newline. -/
theorem hasDD_append_left (a b : List Char) (h : hasDD (a ++ b) = false) :
    hasDD a = false := by
  induction a with
  | nil => rfl
  | cons c t ih =>
    rw [List.cons_append, hasDD_cons, Bool.or_eq_false_iff, Bool.and_eq_false_iff] at h
    rw [hasDD_cons, Bool.or_eq_false_iff, Bool.and_eq_false_iff]
    refine ⟨?_, ih h.2⟩
    rcases h.1 with h1 | h1
    · exact Or.inl h1
    · cases t with
      | nil => exact Or.inr rfl
      | cons x t2 => exact Or.inr (by simpa using h1)

/-- Appending one character preserves no-double-newline when no newline
pair arises at the boundary. -/
theorem hasDD_append_single (l : List Char) (c : Char) (hl : hasDD l = false)
    (hb : ¬(l.getLast? = some '\n' ∧ c = '\n')) : hasDD (l ++ [c]) = false := by
  induction l with
  | nil => simp [hasDD]
  | cons x t ih =>
    rw [hasDD_cons, Bool.or_eq_false_iff, Bool.and_eq_false_iff] at hl
    cases t with
    | nil =>
      simp only [List.getLast?_singleton, Option.some.injEq] at hb
      by_cases hx : x = '\n'
      · have hc : ¬(c = '\n') := fun hcn => hb ⟨hx, hcn⟩
        subst hx
        simp [hasDD, hc]
      · simp [hasDD, hx]
    | cons y t2 =>
      have hbt : ¬((y :: t2).getLast? = some '\n' ∧ c = '\n') := by
        rwa [List.getLast?_cons_cons] at hb
      have iht := ih hl.2 hbt
      rw [List.cons_append, hasDD_cons, Bool.or_eq_false_iff, Bool.and_eq_false_iff]
      refine ⟨?_, iht⟩
      rcases hl.1 with h1 | h1
      · exact Or.inl h1
      · exact Or.inr (by simpa using h1)

/-- The function `dropWhile` keeps no-double-newline. -/
theorem hasDD_dropWhile (q : Char → Bool) (l : List Char)
    (h : hasDD l = false) : hasDD (l.dropWhile q) = false := by
  induction l with
  | nil => rfl
  | cons c t ih =>
    by_cases hq : q c = true
    · simp only [List.dropWhile_cons, hq, if_true]
      exact ih (hasDD_tail h)
    · simpa [List.dropWhile_cons, hq] using h

/-- A nonempty `trimRight` keeps the original head. -/
theorem trimRight_head (l : List Char) (h : trimRight l ≠ []) :
    (trimRight l).head? = l.head? := by
  cases l with
  | nil => exact absurd rfl h
  | cons x t =>
    simp only [trimRight] at h ⊢
    cases ht : trimRight t with
    | nil =>
      rw [ht] at h
      by_cases hx : isWS x = true
      · simp [hx] at h
      · simp [hx]
    | cons r rs => simp

/-- The function `trimRight` keeps no-double-newline. -/
theorem hasDD_trimRight (l : List Char) (h : hasDD l = false) :
    hasDD (trimRight l) = false := by
  induction l with
  | nil => rfl
  | cons c t ih =>
    simp only [trimRight]
    cases ht : trimRight t with
    | nil =>
      by_cases hx : isWS c = true
      · simp [hx, hasDD]
      · simp [hx, hasDD]
    | cons r rs =>
      have iht : hasDD (r :: rs) = false := ht ▸ ih (hasDD_tail h)
      have hh : (r :: rs : List Char).head? = t.head? := by
        have := trimRight_head t (by rw [ht]; simp)
        rwa [ht] at this
      have h1 : (decide (c = '\n') && decide (t.head? = some '\n')) = false := by
        rw [hasDD_cons, Bool.or_eq_false_iff] at h
        exact h.1
      show hasDD (c :: r :: rs) = false
      rw [hasDD_cons, Bool.or_eq_false_iff]
      exact ⟨by rw [hh]; exact h1, iht⟩

/-- Trimming keeps no-double-newline. -/
theorem hasDD_trimWS (l : List Char) (h : hasDD l = false) :
    hasDD (trimWS l) = false :=
  hasDD_trimRight _ (hasDD_dropWhile _ _ h)

/-- Text with no paragraph separator splits into one segment. -/
theorem splitParasGo_of_noDD :
    ∀ (fuel : Nat) (s : List Char) (acc : List Char), hasDD s = false →
      splitParasGo fuel acc s = [acc.reverse ++ s] := by
  intro fuel
  induction fuel with
  | zero => intro s acc _; rfl
  | succ f ih =>
    intro s acc h
    cases s with
    | nil => simp [splitParasGo]
    | cons c rest =>
      have hcond : ¬(c = '\n' ∧ rest.head? = some '\n') := by
        rintro ⟨h1, h2⟩
        rw [hasDD_cons, Bool.or_eq_false_iff, Bool.and_eq_false_iff] at h
        rcases h.1 with h3 | h3
        · rw [h1] at h3
          simp at h3
        · rw [h2] at h3
          simp at h3
      simp only [splitParasGo]
      rw [if_neg hcond, ih rest (c :: acc) (hasDD_tail h)]
      simp

theorem splitParas_of_noDD (l : List Char) (h : hasDD l = false) :
    splitParas l = [l] := by
  unfold splitParas
  rw [splitParasGo_of_noDD _ l [] h]
  simp

/-- Every segment produced by the paragraph splitter contains no
paragraph separator. -/
theorem splitParasGo_segments :
    ∀ (fuel : Nat) (s : List Char), s.length < fuel → ∀ acc,
      hasDD acc.reverse = false →
      (acc.head? = some '\n' → s.head? ≠ some '\n') →
      ∀ seg ∈ splitParasGo fuel acc s, hasDD seg = false := by
  intro fuel
  induction fuel with
  | zero =>
    intro s hs
    exact absurd hs (by omega)
  | succ f ih =>
    intro s hs acc hacc hbd seg hseg
    cases s with
    | nil =>
      simp only [splitParasGo, List.mem_singleton] at hseg
      subst hseg
      exact hacc
    | cons c rest =>
      simp only [splitParasGo] at hseg
      by_cases hcond : c = '\n' ∧ rest.head? = some '\n'
      · rw [if_pos hcond] at hseg
        rcases List.mem_cons.1 hseg with rfl | hseg2
        · exact hacc
        · refine ih (rest.dropWhile (fun ch => ch = '\n')) ?_ [] rfl
            (by intro hh; simp at hh) seg hseg2
          have h1 : (rest.dropWhile (fun ch => ch = '\n')).length ≤ rest.length :=
            (List.dropWhile_sublist _).length_le
          have h2 : rest.length + 1 < f + 1 := by simpa using hs
          omega
      · rw [if_neg hcond] at hseg
        refine ih rest (by simpa using hs) (c :: acc) ?_ ?_ seg hseg
        · rw [List.reverse_cons]
          refine hasDD_append_single _ _ hacc ?_
          rw [List.getLast?_reverse]
          rintro ⟨hl, hc⟩
          exact (hbd hl) (by rw [List.head?_cons, hc])
        · intro hh
          simp only [List.head?_cons, Option.some.injEq] at hh
          intro hr
          exact hcond ⟨hh, hr⟩

theorem splitParas_segments_noDD (text : List Char) :
    ∀ seg ∈ splitParas text, hasDD seg = false := by
  intro seg hseg
  exact splitParasGo_segments (text.length + 1) text (by omega) [] rfl
    (by intro h; simp at h) seg hseg

/-- All-whitespace text trims right to nothing. -/
theorem trimRight_of_allWS (l : List Char) (h : ∀ c ∈ l, isWS c = true) :
    trimRight l = [] := by
  induction l with
  | nil => rfl
  | cons c t ih =>
    have ht := ih (fun x hx => h x (List.mem_cons_of_mem _ hx))
    simp [trimRight, ht, h c (List.mem_cons_self _ _)]

/-- Appending trailing whitespace does not change `trimRight`. -/
theorem trimRight_append_ws (a w : List Char) (hw : ∀ c ∈ w, isWS c = true) :
    trimRight (a ++ w) = trimRight a := by
  induction a with
  | nil => simpa using trimRight_of_allWS w hw
  | cons c t ih => simp only [List.cons_append, List.append_eq, trimRight, ih]

/-- Dropping leading whitespace skips an all-whitespace prefix. -/
theorem dropWhile_ws_append (w a : List Char) (hw : ∀ c ∈ w, isWS c = true) :
    (w ++ a).dropWhile isWS = a.dropWhile isWS := by
  induction w with
  | nil => rfl
  | cons c t ih =>
    simp [List.dropWhile_cons, hw c (List.mem_cons_self _ _),
      ih (fun x hx => hw x (List.mem_cons_of_mem _ hx))]

/-- A leading all-whitespace block does not change the trim. -/
theorem trimWS_ws_append (w a : List Char) (hw : ∀ c ∈ w, isWS c = true) :
    trimWS (w ++ a) = trimWS a := by
  unfold trimWS
  rw [dropWhile_ws_append w a hw]

/-- A trailing all-whitespace block does not change the trim. -/
theorem trimWS_append_ws (a w : List Char) (hw : ∀ c ∈ w, isWS c = true) :
    trimWS (a ++ w) = trimWS a := by
  unfold trimWS
  by_cases h : a.dropWhile isWS = []
  · have haws : ∀ c ∈ a, isWS c = true := fun c hc => List.dropWhile_eq_nil_iff.1 h c hc
    rw [h, dropWhile_ws_append a w haws, List.dropWhile_eq_nil_iff.2 hw]
  · have h2 : (a ++ w).dropWhile isWS = a.dropWhile isWS ++ w := by
      rw [List.dropWhile_append]
      simp [h]
    rw [h2, trimRight_append_ws _ _ hw]

/-- The word count is below the split-token count (tokens overcount:
an all-whitespace paragraph still counts one token). -/
theorem cwAux_le_splitWSGo (l : List Char) :
    ∀ (acc : List Char) (insep : Bool),
      cwAux false l ≤ (splitWSGo acc insep l).length ∧
      cwAux true l + 1 ≤ (splitWSGo acc false l).length := by
  induction l with
  | nil =>
    intro acc insep
    simp [cwAux, splitWSGo]
  | cons c t ih =>
    intro acc insep
    by_cases hc : isWS c = true
    · constructor
      · rw [cwAux_cons, if_pos hc]
        simp only [splitWSGo, hc, if_true]
        cases insep
        · simp only [Bool.false_eq_true, if_false, List.length_cons]
          have := (ih [] true).1
          omega
        · simp only [if_true]
          exact (ih acc true).1
      · rw [cwAux_cons, if_pos hc]
        simp only [splitWSGo, hc, if_true, Bool.false_eq_true, if_false,
          List.length_cons]
        have := (ih [] true).1
        omega
    · have hc2 : isWS c = false := by rwa [Bool.not_eq_true] at hc
      constructor
      · rw [cwAux_cons, if_neg hc]
        simp only [splitWSGo, hc2, Bool.false_eq_true, if_false, eq_self_iff_true,
          if_true]
        have := (ih (c :: acc) insep).2
        omega
      · rw [cwAux_cons, if_neg hc]
        simp only [splitWSGo, hc2, Bool.false_eq_true, if_false, eq_self_iff_true,
          if_true]
        have := (ih (c :: acc) insep).2
        omega

theorem countWords_le_countTokens (p : List Char) :
    countWords p ≤ countTokens p := by
  unfold countWords countTokens
  have h1 : cwAux false (trimWS p) = cwAux false p := by
    have h := countWords_trimWS p
    unfold countWords at h
    exact h
  have h2 := (cwAux_le_splitWSGo (trimWS p) [] false).1
  omega

/-- A page closed from the running buffer respects the budget whenever it
holds more than one paragraph. -/
theorem closed_page_good (cur : List Char) (wc : Nat)
    (hw : cwAux false cur ≤ wc)
    (hpar : 1 < (splitParas (trimWS cur)).length → wc ≤ wordsPerPage) :
    1 < (splitParas (trimWS cur)).length → countWords (trimWS cur) ≤ wordsPerPage := by
  intro hgt
  rw [countWords_trimWS]
  exact le_trans hw (hpar hgt)

/-- A freshly started buffer holds a single paragraph. -/
theorem fresh_buffer_paras (p : List Char) (hp : hasDD p = false) :
    (splitParas (trimWS (p ++ "\n\n".data))).length = 1 := by
  rw [trimWS_append_ws p _ (by decide), splitParas_of_noDD _ (hasDD_trimWS _ hp)]
  rfl

/-- A buffer whose old content was all whitespace holds a single
paragraph after an append. -/
theorem ws_prefix_buffer_paras (cur p : List Char)
    (hcur : ∀ c ∈ cur, isWS c = true) (hp : hasDD p = false) :
    (splitParas (trimWS (cur ++ (p ++ "\n\n".data)))).length = 1 := by
  rw [trimWS_ws_append cur _ hcur]
  exact fresh_buffer_paras p hp

/-- Invariant preservation through the pagination loop: every page it
emits that holds more than one paragraph stays within the word budget. -/
theorem buildPagesLoad_bounded (ps : List (List Char)) :
    ∀ (cur : List Char) (wc : Nat) (pages : List (List Char)),
      (∀ p ∈ ps, hasDD p = false) →
      cwAux false cur ≤ wc →
      (1 < (splitParas (trimWS cur)).length → wc ≤ wordsPerPage) →
      (∀ pg ∈ pages, 1 < (splitParas pg).length → countWords pg ≤ wordsPerPage) →
      ∀ pg ∈ buildPagesLoad ps cur wc pages,
        1 < (splitParas pg).length → countWords pg ≤ wordsPerPage := by
  induction ps with
  | nil =>
    intro cur wc pages _ hw hpar hpages pg hpg
    simp only [buildPagesLoad] at hpg
    split_ifs at hpg with hcur
    · rcases List.mem_append.1 hpg with h | h
      · exact hpages pg h
      · simp only [List.mem_singleton] at h
        subst h
        exact closed_page_good cur wc hw hpar
    · exact hpages pg hpg
  | cons p rest ih =>
    intro cur wc pages hps hw hpar hpages pg hpg
    simp only [buildPagesLoad] at hpg
    have hpDD : hasDD p = false := hps p (List.mem_cons_self _ _)
    have hrest : ∀ q ∈ rest, hasDD q = false :=
      fun q hq => hps q (List.mem_cons_of_mem _ hq)
    have hwp : cwAux false (p ++ "\n\n".data) ≤ countTokens p := by
      have h1 := cwAux_append_le p ("\n\n".data) false
      have h2 : cwAux false "\n\n".data = 0 := rfl
      have h3 : cwAux false p ≤ countTokens p := countWords_le_countTokens p
      omega
    split_ifs at hpg with hcond
    · refine ih (p ++ "\n\n".data) (countTokens p) (pages ++ [trimWS cur]) hrest hwp
        ?_ ?_ pg hpg
      · intro hgt
        rw [fresh_buffer_paras p hpDD] at hgt
        omega
      · intro q hq
        rcases List.mem_append.1 hq with h | h
        · exact hpages q h
        · simp only [List.mem_singleton] at h
          subst h
          exact closed_page_good cur wc hw hpar
    · refine ih (cur ++ (p ++ "\n\n".data)) (wc + countTokens p) pages hrest ?_ ?_
        hpages pg hpg
      · have h1 := cwAux_append_le cur (p ++ "\n\n".data) false
        omega
      · intro hgt
        rcases not_and_or.1 hcond with h1 | h1
        · omega
        · exfalso
          have hcurws : ∀ c ∈ cur, isWS c = true :=
            allWS_of_trimWS_nil cur (by simpa using h1)
          rw [ws_prefix_buffer_paras cur p hcurws hpDD] at hgt
          omega

/-- C9: every page produced by the paginator that contains more than one
paragraph has a whitespace-delimited word count of at most the 400-word
budget; only a single-paragraph page can exceed it, since a paragraph is
never split across pages. -/
theorem multi_paragraph_pages_within_budget (text : List Char) :
    ∀ pg ∈ processPagesLoad text, 1 < (splitParas pg).length →
      countWords pg ≤ wordsPerPage := by
  intro pg hpg
  refine buildPagesLoad_bounded (splitParas text) [] 0 []
    (splitParas_segments_noDD text) (le_refl _) ?_ (by simp) pg hpg
  intro h
  rw [show (splitParas (trimWS ([] : List Char))).length = 1 from rfl] at h
  omega

/-- C9 witness: the two-paragraph text `a\n\nb` fits on one page whose
word count is within the budget. -/
theorem multi_paragraph_pages_within_budget_witness :
    "a\n\nb".data ∈ processPagesLoad "a\n\nb".data ∧
      1 < (splitParas "a\n\nb".data).length ∧
      countWords "a\n\nb".data ≤ wordsPerPage :=
  ⟨by decide, by decide,
    multi_paragraph_pages_within_budget "a\n\nb".data "a\n\nb".data
      (by decide) (by decide)⟩

end ReadLive